import Mathlib

/-!
Verification development for the objtree service-object-tree library.

The Go sources are embedded shallowly: maps become association lists
(`List (String × _)`, unique keys in any state the program builds), Go's
`reflect.Type` values become the inductive `GoType`, runtime values become
`GoVal`, and each Go function is translated into an executable Lean
definition of the same name (up to Lean naming rules).  The object tree's
pointer structure — child maps, parent pointers and the aliasing between
them — is modelled by an explicit heap of nodes keyed by references
(`Heap`, `HNode`).
-/

/-- GoType models the `reflect.Type` values that can appear as argument or
return types of exported operations.  `terror` stands for Go's `error`
interface type and `tsender` for `dbus.Sender`; `tother n` covers every
further type, indexed so that distinct Go types stay distinct. -/
inductive GoType where
  | tstring : GoType
  | tint : GoType
  | tbool : GoType
  | tsender : GoType
  | terror : GoType
  | tother : Nat → GoType
deriving DecidableEq, Repr

/-- Models `typ.Implements(errtype)` from the Go sources: only the error
interface type itself is treated as implementing `error` in this model. -/
def isErrType : GoType → Bool
  | GoType.terror => true
  | _ => false

/-- GoVal models runtime `interface{}` values: `nilv` is the untyped nil
interface, `errv` a non-nil error value, `senderv` a `dbus.Sender`. -/
inductive GoVal where
  | nilv : GoVal
  | strv : String → GoVal
  | intv : Int → GoVal
  | boolv : Bool → GoVal
  | senderv : String → GoVal
  | errv : String → GoVal
  | otherv : Nat → GoVal
deriving DecidableEq, Repr

/-- Models the per-value success condition of `dbus.Store`: structurally
decoding one inbound value into a freshly allocated slot of the declared
type succeeds exactly when the value fits the type. -/
def hasType : GoVal → GoType → Bool
  | GoVal.strv _, GoType.tstring => true
  | GoVal.intv _, GoType.tint => true
  | GoVal.boolv _, GoType.tbool => true
  | GoVal.senderv _, GoType.tsender => true
  | GoVal.errv _, GoType.terror => true
  | GoVal.otherv n, GoType.tother m => n = m
  | _, _ => false

/-- Association-list lookup, the model of reading a Go map (`m[k]`),
returning the first binding of the key. -/
def lookupA {α : Type} (l : List (String × α)) (k : String) : Option α :=
  match l with
  | [] => none
  | p :: rest => if p.1 = k then some p.2 else lookupA rest k

/-- Association-list overwrite of an existing key, the model of writing a
Go map entry whose key is already present. -/
def updateA {α : Type} (l : List (String × α)) (k : String) (v : α) : List (String × α) :=
  l.map (fun p => if p.1 = k then (p.1, v) else p)

/-- Association-list removal, the model of `delete(m, k)`. -/
def removeA {α : Type} (l : List (String × α)) (k : String) : List (String × α) :=
  l.filter (fun p => ¬(p.1 = k))

/-- Association-list insert-or-overwrite, the model of `m[k] = v` when the
key may be absent. -/
def setA {α : Type} (l : List (String × α)) (k : String) (v : α) : List (String × α) :=
  match lookupA l k with
  | some _ => updateA l k v
  | none => l ++ [(k, v)]

/-! ## The reflect layer (internal/reflect/reflect.go) -/

/-- MType is the signature part of a `reflect.Type` of kind func: its
ordered argument types (`NumIn`/`In`) and return types (`NumOut`/`Out`). -/
structure MType where
  ins : List GoType
  outs : List GoType
deriving DecidableEq, Repr

/-- RMethod models `reflect.Method`: a callable `reflect.Value`, carried
here as its signature together with its behaviour on argument lists. -/
structure RMethod where
  ins : List GoType
  outs : List GoType
  run : List GoVal → List GoVal

/-- The signature of an `RMethod`, the model of `method.value.Type()`. -/
def RMethod.mtype (m : RMethod) : MType := ⟨m.ins, m.outs⟩

/-- RInterfaceType models `reflect.InterfaceType`: required operation
signatures and required field types, each keyed by name. -/
structure RInterfaceType where
  methods : List (String × MType)
  properties : List (String × GoType)
deriving DecidableEq, Repr

/-- RObjDesc models the candidate side of matching: the name → type maps
produced by `Object.getMethodTypes` and `Object.getPropertyTypes`. -/
structure RObjDesc where
  methods : List (String × MType)
  properties : List (String × GoType)
deriving DecidableEq, Repr

/-- Translation of `isSubsetOfMethods` (reflect.go): the early length
shortcut, then for every required entry an exact positional comparison of
argument types and of return types of the candidate's method of the same
name.  No trailing-error adjustment is performed. -/
def isSubsetOfMethods (subset set : List (String × MType)) : Bool :=
  if subset.length > set.length then false
  else subset.all fun p =>
    match lookupA set p.1 with
    | none => false
    | some mty =>
      decide (p.2.ins.length = mty.ins.length) &&
      decide (p.2.outs.length = mty.outs.length) &&
      (p.2.ins.zip mty.ins).all (fun q => decide (q.1 = q.2)) &&
      (p.2.outs.zip mty.outs).all (fun q => decide (q.1 = q.2))

/-- Translation of `isSubsetOfProperties` (reflect.go): every required
field must be present in the candidate with exactly equal type. -/
def isSubsetOfProperties (subset set : List (String × GoType)) : Bool :=
  if subset.length > set.length then false
  else subset.all fun p =>
    match lookupA set p.1 with
    | none => false
    | some ty => decide (p.2 = ty)

/-- Translation of `Object.Implements` (reflect.go): a nil required
interface never matches; otherwise both subset tests must pass.  The
`Option` argument models the nil-ness of the Go pointer. -/
def objImplements (iface : Option RInterfaceType) (o : RObjDesc) : Bool :=
  match iface with
  | none => false
  | some i => isSubsetOfMethods i.methods o.methods &&
      isSubsetOfProperties i.properties o.properties

/-- Whether the last declared return type implements `error`, the guard
`last >= 0 && method_type.Out(last).Implements(errtype)` from reflect.go. -/
def lastIsErr (outs : List GoType) : Bool :=
  match outs.getLast? with
  | some t => isErrType t
  | none => false

/-- Translation of `Method.Call` (reflect.go): invoke the underlying
function; if the last declared return implements `error`, drop that slot
from the results and surface a non-nil value in it as the call's error. -/
def methodCall (m : RMethod) (args : List GoVal) : List GoVal × Option GoVal :=
  let ret := m.run args
  let last := m.outs.length - 1
  if lastIsErr m.outs then
    let ev := ret.getD last GoVal.nilv
    (ret.take last, if ev ≠ GoVal.nilv then some ev else none)
  else (ret, none)

/-- Translation of `Method.NumReturns` (reflect.go): the declared return
count minus one when the last declared return implements `error`. -/
def numReturns (outs : List GoType) : Nat :=
  if lastIsErr outs then outs.length - 1 else outs.length

/-! ## The spec-side matcher for claim C1 -/

/-- Drops a trailing error-typed return from a return-type list, the
"trailing-error convention" the specification describes. -/
def dropTrailingErr (outs : List GoType) : List GoType :=
  match outs.getLast? with
  | some t => if isErrType t then outs.dropLast else outs
  | none => outs

/-- Modelled from the spec: the matcher claim C1 describes.  `Satisfies`
returns false for a nil required descriptor; otherwise every required
operation must be present in the candidate with identical argument types
and with identical return types after a trailing error-typed return is
excluded on both sides.  This definition follows the claim's words and is
compared against `objImplements`, the translation of the source. -/
def satisfiesSpec (iface : Option RInterfaceType) (o : RObjDesc) : Bool :=
  match iface with
  | none => false
  | some i =>
    (i.methods.all fun p =>
      match lookupA o.methods p.1 with
      | none => false
      | some mty =>
        decide (p.2.ins = mty.ins) &&
        decide (dropTrailingErr p.2.outs = dropTrailingErr mty.outs)) &&
    isSubsetOfProperties i.properties o.properties

/-! ## Claim C5: inbound decode (Method.DecodeArguments) -/

/-- The errors the dispatch layer reports, modelling the `dbus.ErrMsg*`
values used by the sources. -/
inductive DbusErr where
  | invalidArg : DbusErr
  | unknownInterface : DbusErr
  | unknownMethod : DbusErr
deriving DecidableEq, Repr

/-- The declared argument slots that are decoded from the inbound payload:
every slot except those of the reserved caller-identity type
(`dbus.Sender`).  Models the `decode` slice built by `DecodeArguments`. -/
def decodeList (ins : List GoType) : List GoType :=
  ins.filter (fun t => ¬(t = GoType.tsender))

/-- Models `dbus.Store(body, decode...)`: each payload value must decode
structurally into the corresponding declared slot. -/
def storeOk (tys : List GoType) (body : List GoVal) : Bool :=
  (tys.zip body).all (fun p => hasType p.2 p.1)

/-- The final argument list produced by `DecodeArguments`: caller-identity
slots are synthesized from the bound sender, every other slot consumes the
next decoded payload value. -/
def fillArgs : List GoType → String → List GoVal → List GoVal
  | [], _, _ => []
  | t :: ts, sender, vs =>
    if t = GoType.tsender then GoVal.senderv sender :: fillArgs ts sender vs
    else match vs with
      | [] => []
      | v :: vs2 => v :: fillArgs ts sender vs2

/-- Translation of `Method.DecodeArguments`: sender-typed slots are filled
from the bound sender and skipped by decoding; the call fails with the
invalid-argument error when the externally-decodable slot count differs
from the payload length or when structural decoding of a value fails. -/
def decodeArguments (ins : List GoType) (sender : String) (body : List GoVal) :
    Except DbusErr (List GoVal) :=
  if (decodeList ins).length ≠ body.length then Except.error DbusErr.invalidArg
  else if storeOk (decodeList ins) body then Except.ok (fillArgs ins sender body)
  else Except.error DbusErr.invalidArg

/-- IntroArg is one rendered argument of the introspection document:
its type and its direction string. -/
structure IntroArg where
  typ : GoType
  dir : String
deriving DecidableEq, Repr

/-- The "in" arguments rendered by `Method.Introspect`: every declared
argument except the reserved caller-identity type, in order. -/
def introInArgs (ins : List GoType) : List IntroArg :=
  (ins.filter (fun t => ¬(t = GoType.tsender))).map (fun t => ⟨t, "in"⟩)

/-- The values of the non-sender slots of a decoded argument list, used
to state that payload values land, in order, in exactly those slots. -/
def nonSenderVals (ins : List GoType) (vals : List GoVal) : List GoVal :=
  (ins.zip vals).filterMap
    (fun p => if p.1 = GoType.tsender then none else some p.2)

/-! ## Claim C3: the subscription manager (dbus.go mgrState) -/

/-- Translation of `mkSignalKey` (dbus.go). -/
def mkSignalKey (iface member : String) : String := iface ++ "." ++ member

/-- MgrState models `mgrState`: the subscription reference counts keyed by
signal key.  Go's map reads default to 0 for absent keys. -/
structure MgrState where
  sigref : List (String × Nat)
deriving DecidableEq, Repr

/-- The state a fresh bus manager starts from: no subscriptions. -/
def mgrInit : MgrState := ⟨[]⟩

/-- Reading `s.sigref[key]`, defaulting to 0. -/
def getRef (s : MgrState) (k : String) : Nat := (lookupA s.sigref k).getD 0

/-- Writing `s.sigref[key] = n`. -/
def setRef (s : MgrState) (k : String) (n : Nat) : MgrState := ⟨setA s.sigref k n⟩

/-- BusCall records one transport call issued by the manager: the
`AddMatch` (subscribe) or `RemoveMatch` (unsubscribe) bus method call. -/
inductive BusCall where
  | addMatch (iface member : String) : BusCall
  | removeMatch (iface member : String) : BusCall
deriving DecidableEq, Repr

/-- Translation of `mgrState.AddMatchSignal`: the transport subscribe call
is issued only when the count is 0, then the count is incremented. -/
def addMatchSignal (s : MgrState) (iface member : String) :
    MgrState × List BusCall :=
  let k := mkSignalKey iface member
  (setRef s k (getRef s k + 1),
   if getRef s k = 0 then [BusCall.addMatch iface member] else [])

/-- Translation of `mgrState.RemoveMatchSignal`: a removal at count 0 does
nothing; otherwise the count is decremented and the transport unsubscribe
call is issued exactly when it reaches 0. -/
def removeMatchSignal (s : MgrState) (iface member : String) :
    MgrState × List BusCall :=
  let k := mkSignalKey iface member
  if getRef s k = 0 then (s, [])
  else (setRef s k (getRef s k - 1),
    if getRef s k - 1 = 0 then [BusCall.removeMatch iface member] else [])

/-- SigOp is one listener-driven manager operation: a registration adds a
match, a removal removes one. -/
inductive SigOp where
  | add (iface member : String) : SigOp
  | remove (iface member : String) : SigOp
deriving DecidableEq, Repr

/-- Dispatch of one operation to the manager. -/
def applyOp (s : MgrState) : SigOp → MgrState × List BusCall
  | SigOp.add i m => addMatchSignal s i m
  | SigOp.remove i m => removeMatchSignal s i m

/-- Running a sequence of operations, concatenating the transport calls. -/
def runOps (s : MgrState) : List SigOp → MgrState × List BusCall
  | [] => (s, [])
  | op :: rest =>
    let r := applyOp s op
    let r2 := runOps r.1 rest
    (r2.1, r.2 ++ r2.2)

/-- The pure evolution of one key's reference count under one operation:
additions of a pair with this key increment it, removals decrement it
unless it is already 0, operations on other keys leave it unchanged. -/
def refStep (k : String) (c : Nat) : SigOp → Nat
  | SigOp.add i m => if mkSignalKey i m = k then c + 1 else c
  | SigOp.remove i m => if mkSignalKey i m = k ∧ c ≠ 0 then c - 1 else c

/-- The number of 0-to-1 transitions of the shared count that are driven
by additions of exactly the pair (i, m), along a trace started at count c. -/
def subsSpec (i m : String) (c : Nat) : List SigOp → Nat
  | [] => 0
  | op :: rest =>
    (if op = SigOp.add i m ∧ c = 0 then 1 else 0) +
      subsSpec i m (refStep (mkSignalKey i m) c op) rest

/-- The number of transitions of the shared count to 0 that are driven by
removals of exactly the pair (i, m), along a trace started at count c. -/
def unsubsSpec (i m : String) (c : Nat) : List SigOp → Nat
  | [] => 0
  | op :: rest =>
    (if op = SigOp.remove i m ∧ c = 1 then 1 else 0) +
      unsubsSpec i m (refStep (mkSignalKey i m) c op) rest

/-- The trace of the claim's example: two listeners sharing the pair
("X", "Y") are registered, then both are removed. -/
def twoListenerTrace : List SigOp :=
  [SigOp.add "X" "Y", SigOp.add "X" "Y",
   SigOp.remove "X" "Y", SigOp.remove "X" "Y"]

/-! ## The object tree (object.go, interface.go) -/

/-- RObj models `reflect.Object` as held by a tree node: its exported
operations.  (Field handles are not needed by the tree-level claims.) -/
structure RObj where
  methods : List (String × RMethod)

/-- RIface models the objtree `Interface`: a `reflect.Interface`, i.e. the
declared capability signatures (`typ`) paired with the implementation's
operation handles (`impl`).  `AsInterface` only builds values whose `typ`
names are a subset of `impl`'s. -/
structure RIface where
  typ : List (String × MType)
  impl : List (String × RMethod)

/-- Translation of `reflect.Interface.LookupMethod`: the name must be
declared by the interface type, then the implementation's handle is
returned. -/
def ifaceLookupMethod (ifc : RIface) (name : String) : Option RMethod :=
  match lookupA ifc.typ name with
  | none => none
  | some _ => lookupA ifc.impl name

/-- RNode models the objtree `Object`: its path-segment name, optional
implementation, exported capability bindings, listener bindings, and
children.  The parent and bus back-references of the Go struct are
represented by the recursion structure of the operations instead. -/
inductive RNode where
  | mk (name : String) (impl : Option RObj)
      (interfaces : List (String × RIface))
      (listeners : List (String × RIface))
      (objects : List (String × RNode)) : RNode

/-- The node's segment name. -/
def RNode.name : RNode → String
  | .mk n _ _ _ _ => n

/-- The node's implementation (`nil` for placeholders). -/
def RNode.impl : RNode → Option RObj
  | .mk _ i _ _ _ => i

/-- The node's exported capability bindings. -/
def RNode.interfaces : RNode → List (String × RIface)
  | .mk _ _ a _ _ => a

/-- The node's listener bindings. -/
def RNode.listeners : RNode → List (String × RIface)
  | .mk _ _ _ b _ => b

/-- The node's children, keyed by segment name. -/
def RNode.objects : RNode → List (String × RNode)
  | .mk _ _ _ _ o => o

/-- Replacing the node's child map, the effect of `o.objects.Update`. -/
def RNode.withObjects : RNode → List (String × RNode) → RNode
  | .mk n i a b _, objs => .mk n i a b objs

/-- The D-Bus introspection interface name constant. -/
def fdtIntrospectable : String := "org.freedesktop.DBus.Introspectable"

/-- The D-Bus peer interface name constant. -/
def fdtPeer : String := "org.freedesktop.DBus.Peer"

/-- The two built-in capability bindings `newObjectFromImpl` installs on
every node (object.go:47-48).  The operation bodies are abstracted to
stubs: in Go the introspection body renders the node's document, but no
claim invokes a built-in operation, only their names and signatures are
observable through the claims. -/
def builtinInterfaces : List (String × RIface) :=
  [(fdtIntrospectable,
    ⟨[("Introspect", ⟨[], [GoType.tstring]⟩)],
     [("Introspect", ⟨[], [GoType.tstring], fun _ => [GoVal.strv ""]⟩)]⟩),
   (fdtPeer,
    ⟨[("GetMachineId", ⟨[], [GoType.tstring]⟩), ("Ping", ⟨[], []⟩)],
     [("GetMachineId", ⟨[], [GoType.tstring], fun _ => [GoVal.strv ""]⟩),
      ("Ping", ⟨[], [], fun _ => []⟩)]⟩)]

/-- Translation of `newObjectFromImpl`: a fresh node with the built-in
bindings, no listeners and no children. -/
def mkObject (name : String) (impl : Option RObj) : RNode :=
  RNode.mk name impl builtinInterfaces [] []

/-- Translation of `Object.addObject`: store the child under its name; if
a child of that name already exists, the replacement keeps its children. -/
def addObjectA (objs : List (String × RNode)) (name : String) (node : RNode) :
    List (String × RNode) :=
  match lookupA objs name with
  | some old => updateA objs name (node.withObjects old.objects)
  | none => objs ++ [(name, node)]

/-- Translation of `Object.newObject`: walk the path, reusing existing
nodes and creating placeholder nodes for missing intermediate segments,
then create the leaf with the given implementation. -/
def newObject (o : RNode) (path : List String) (impl : Option RObj) : RNode :=
  match path with
  | [] => o
  | [name] => o.withObjects (addObjectA o.objects name (mkObject name impl))
  | name :: rest =>
    match lookupA o.objects name with
    | some c => o.withObjects (updateA o.objects name (newObject c rest impl))
    | none =>
      o.withObjects
        (o.objects ++ [(name, newObject (mkObject name none) rest impl)])

/-- Translation of `Object.lookupObjectPath` (with the root convention of
`BusManager.LookupObject`: the empty path is the node itself). -/
def lookupPath (o : RNode) : List String → Option RNode
  | [] => some o
  | name :: rest =>
    match lookupA o.objects name with
    | none => none
    | some c => lookupPath c rest

/-- Association-list lookup keyed by a numeric heap reference,
the model of dereferencing a Go pointer. -/
def lookupN {α : Type} : List (Nat × α) → Nat → Option α
  | [], _ => none
  | p :: rest, k => if p.1 = k then some p.2 else lookupN rest k

/-- Association-list overwrite keyed by a numeric heap reference,
the model of assigning through a Go pointer. -/
def updateN {α : Type} (l : List (Nat × α)) (k : Nat) (v : α) :
    List (Nat × α) :=
  l.map (fun p => if p.1 = k then (p.1, v) else p)

/-- A tree node as allocated on the Go heap: the fields of `Object`
(object.go:12-20), with the child map holding heap references to nodes
and `parent` holding the heap reference the node was constructed with.
Keeping references explicit represents aliasing exactly as in the
running program: two child maps may hold the same node, and a parent
pointer may refer to a node that no map reaches any more. -/
structure HNode where
  name : String
  impl : Option RObj
  interfaces : List (String × RIface)
  listeners : List (String × RIface)
  objects : List (String × Nat)
  parent : Option Nat

/-- The heap of allocated `Object` nodes: each node under its reference,
plus the next fresh reference. -/
structure Heap where
  nodes : List (Nat × HNode)
  next : Nat

/-- Dereference a node. -/
def heapGet (h : Heap) (oid : Nat) : Option HNode := lookupN h.nodes oid

/-- Overwrite a node in place. -/
def heapSet (h : Heap) (oid : Nat) (n : HNode) : Heap :=
  ⟨updateN h.nodes oid n, h.next⟩

/-- Allocate a node at a fresh reference. -/
def heapAlloc (h : Heap) (n : HNode) : Heap × Nat :=
  (⟨h.nodes ++ [(h.next, n)], h.next + 1⟩, h.next)

/-- `newObjectFromImpl` (object.go:31-49): a fresh node carries the two
built-in exported bindings, an empty listener map, an empty child map and
the parent reference it was constructed with. -/
def mkHNode (name : String) (impl : Option RObj) (parent : Option Nat) :
    HNode :=
  ⟨name, impl, builtinInterfaces, [], [], parent⟩

/-- Replace a node's child map (the store at the end of an
`o.objects.Update`).  A dangling reference leaves the heap unchanged; the
operations below only ever pass references they just dereferenced. -/
def heapSetObjects (h : Heap) (oid : Nat) (objs : List (String × Nat)) :
    Heap :=
  match heapGet h oid with
  | none => h
  | some o => heapSet h oid { o with objects := objs }

/-- `Object.removeListeners` (object.go:52-66): the node's listener map
is reset to empty.  (The `RemoveMatchSignal` refcounting it performs per
listener pair is the subscription layer modelled by
`removeMatchSignal`.) -/
def heapRemoveListeners (h : Heap) (oid : Nat) : Heap :=
  match heapGet h oid with
  | none => h
  | some o => heapSet h oid { o with listeners := [] }

/-- `Object.addObject` (object.go:241-255): when a child of this name
already exists, the incoming node first adopts the old node's child map —
`object.objects = obj.objects` — and then replaces the old node in this
node's map.  Nothing re-points the adopted children's `parent` fields at
the incoming node: they keep referring to the node being replaced. -/
def heapAddObject (h : Heap) (oid : Nat) (name : String) (nid : Nat) :
    Heap :=
  match heapGet h oid with
  | none => h
  | some o =>
    match lookupA o.objects name with
    | some oldId =>
      let h1 := match heapGet h oldId with
        | none => h
        | some old => heapSetObjects h nid old.objects
      heapSetObjects h1 oid (updateA o.objects name nid)
    | none => heapSetObjects h oid (o.objects ++ [(name, nid)])

/-- `Object.newObject` (object.go:90-102) on the heap: walk the path,
reusing an existing child or installing a placeholder at intermediate
segments, and install a node carrying the implementation at the final
segment.  Every node allocated here records the walk's current node as
its parent.  (`path` is never empty: `NewObject` returns the receiver for
the root path before calling this.) -/
def heapNewObject : Heap → Nat → List String → Option RObj → Heap
  | h, _, [], _ => h
  | h, oid, [name], impl =>
    let r := heapAlloc h (mkHNode name impl (some oid))
    heapAddObject r.1 oid name r.2
  | h, oid, name :: rest, impl =>
    match heapGet h oid with
    | none => h
    | some o =>
      match lookupA o.objects name with
      | some cid => heapNewObject h cid rest impl
      | none =>
        let r := heapAlloc h (mkHNode name none (some oid))
        heapNewObject (heapAddObject r.1 oid name r.2) r.2 rest impl

/-- `Object.rmChildObject` (object.go:145-167).  The child-map update:
the named child's listeners are removed, then the child is deleted
outright if it has no children of its own, or replaced by a fresh
placeholder that keeps its children.  Afterwards, if this node has no
implementation and its stored parent reference is set, the same removal
runs at that parent under this node's name —
`o.parent.rmChildObject(o.name)` follows the stored pointer, not the
path the deletion walked.  The Go recursion climbs the parent chain;
`fuel` bounds that climb explicitly and is never exhausted on the runs
evaluated below. -/
def heapRmChildObject : Nat → Heap → Nat → String → Heap
  | 0, h, _, _ => h
  | fuel + 1, h, oid, name =>
    match heapGet h oid with
    | none => h
    | some o =>
      let h1 :=
        match lookupA o.objects name with
        | none => h
        | some cid =>
          let hc := heapRemoveListeners h cid
          match heapGet hc cid with
          | none => hc
          | some c =>
            if c.objects.isEmpty then
              heapSetObjects hc oid (removeA o.objects name)
            else
              let r := heapAlloc hc (mkHNode name none (some oid))
              heapSetObjects (heapSetObjects r.1 r.2 c.objects) oid
                (updateA o.objects name r.2)
      match o.impl, o.parent with
      | none, some p => heapRmChildObject fuel h1 p o.name
      | _, _ => h1

/-- `Object.delObject` (object.go:176-188) on the heap: walk the path
through the live child maps and run `rmChildObject` at the node holding
the final segment (`DeleteObject` parses the path and returns early for
the root path). -/
def heapDelObject (fuel : Nat) : Heap → Nat → List String → Heap
  | h, _, [] => h
  | h, oid, [name] =>
    match heapGet h oid with
    | none => h
    | some o =>
      match lookupA o.objects name with
      | some _ => heapRmChildObject fuel h oid name
      | none => h
  | h, oid, name :: rest =>
    match heapGet h oid with
    | none => h
    | some o =>
      match lookupA o.objects name with
      | some cid => heapDelObject fuel h cid rest
      | none => h

/-- `Object.lookupObjectPath` on the heap: resolve a path to the
reference of the node it denotes, starting from `oid`. -/
def heapIdAt (h : Heap) : Nat → List String → Option Nat
  | oid, [] => some oid
  | oid, name :: rest =>
    match heapGet h oid with
    | none => none
    | some o =>
      match lookupA o.objects name with
      | none => none
      | some cid => heapIdAt h cid rest

/-- Resolve a path from the tree root, which the initial heaps below
allocate at reference 0. -/
def heapNodeAt (h : Heap) (path : List String) : Option HNode :=
  match heapIdAt h 0 path with
  | none => none
  | some oid => heapGet h oid

/-- The listener-map write of `Object.addListener` (object.go:225-239) on
the node a path denotes, as reached through `Object.Receives`: bind the
capability name to the interface.  (The `AddMatchSignal` refcounting is
the subscription layer modelled by `addMatchSignal`.) -/
def heapReceives (h : Heap) (path : List String) (name : String)
    (ifc : RIface) : Heap :=
  match heapIdAt h 0 path with
  | none => h
  | some oid =>
    match heapGet h oid with
    | none => h
    | some o =>
      heapSet h oid { o with listeners := setA o.listeners name ifc }

/-- Whether a node's listener map binds this capability with an operation
of this name — the two lookups of `Object.DeliverSignal`. -/
def listensTo (o : RNode) (iface member : String) : Bool :=
  match lookupA o.listeners iface with
  | none => false
  | some ifc => (ifaceLookupMethod ifc member).isSome

/-- SEvent records one listener invocation performed by signal delivery:
the path of the node whose listener fired, the capability and operation
names, and the payload the operation was called with. -/
structure SEvent where
  path : List String
  iface : String
  member : String
  body : List GoVal
deriving DecidableEq, Repr

mutual
/-- Translation of `Object.DeliverSignal`: invoke the node's own matching
listener operation (if any) with the payload, then propagate to every
child regardless.  `loc` is the node's path, used to record which node's
listener fired. -/
def deliverSignal : RNode → String → String → List GoVal → List String →
    List SEvent
  | RNode.mk _ _ _ ls objs, iface, member, body, loc =>
    (match lookupA ls iface with
     | none => []
     | some ifc =>
       match ifaceLookupMethod ifc member with
       | none => []
       | some _ => [⟨loc, iface, member, body⟩]) ++
    deliverChildren objs iface member body loc

/-- The propagation loop of `Object.DeliverSignal` over the child map. -/
def deliverChildren : List (String × RNode) → String → String →
    List GoVal → List String → List SEvent
  | [], _, _, _, _ => []
  | (nm, c) :: rest, iface, member, body, loc =>
    deliverSignal c iface member body (loc ++ [nm]) ++
    deliverChildren rest iface member body loc
end

/-- Translation of `BusManager.DeliverSignal`: the transport-facing entry
point hands the signal to every child of the root — not to the root. -/
def busDeliverSignal (root : RNode) (iface member : String)
    (body : List GoVal) : List SEvent :=
  deliverChildren root.objects iface member body []

/-- Translation of `Object.Call`: unknown capability and unknown
operation are reported without touching the node; otherwise the call is
delegated to the operation handle.  The returned node is the state of the
tree node after the call. -/
def objectCall (o : RNode) (ifaceName member : String) (args : List GoVal) :
    Except DbusErr (List GoVal × Option GoVal) × RNode :=
  match lookupA o.interfaces ifaceName with
  | none => (Except.error DbusErr.unknownInterface, o)
  | some ifc =>
    match ifaceLookupMethod ifc member with
    | none => (Except.error DbusErr.unknownMethod, o)
    | some m => (Except.ok (methodCall m args), o)

/-- A concrete node for the C6 witness: one binding "com.example.I" whose
declared type names only "CallMe" while the implementation also defines
"CallMe2". -/
def c6Node : RNode :=
  RNode.mk "n" (some ⟨[("CallMe", ⟨[], [], fun _ => []⟩),
      ("CallMe2", ⟨[], [], fun _ => []⟩)]⟩)
    [("com.example.I",
      ⟨[("CallMe", ⟨[], []⟩)],
       [("CallMe", ⟨[], [], fun _ => []⟩),
        ("CallMe2", ⟨[], [], fun _ => []⟩)]⟩)]
    [] []

/-! ## Sorting (the sort.Sort calls of the renderer) -/

/-- Ordered insert for the name-sorted renderings. -/
def insertByName {α : Type} (key : α → String) (x : α) : List α → List α
  | [] => [x]
  | y :: rest =>
    if key x ≤ key y then x :: y :: rest else y :: insertByName key x rest

/-- Insertion sort by a string key: the model of `sort.Sort` with a
`Less` comparing names.  The result is name-sorted; name-sorted order is
all the claims observe about `sort.Sort`. -/
def sortByName {α : Type} (key : α → String) : List α → List α
  | [] => []
  | x :: rest => insertByName key x (sortByName key rest)

/-! ## The introspection document model -/

/-- IntroMethod is one rendered operation: name and argument listing. -/
structure IntroMethod where
  name : String
  args : List IntroArg
deriving DecidableEq, Repr

/-- IntroInterface is one rendered capability: name and operations. -/
structure IntroInterface where
  name : String
  methods : List IntroMethod
deriving DecidableEq, Repr

/-- IntroNode is the rendered document of one node: its name, its
capability section and its rendered children. -/
inductive IntroNode where
  | mk (name : String) (interfaces : List IntroInterface)
      (children : List IntroNode) : IntroNode

/-- The rendered node's name. -/
def IntroNode.name : IntroNode → String
  | .mk n _ _ => n

/-- The rendered node's capability section. -/
def IntroNode.interfaces : IntroNode → List IntroInterface
  | .mk _ i _ => i

/-- The rendered node's children. -/
def IntroNode.children : IntroNode → List IntroNode
  | .mk _ _ c => c

/-! ## The introspection renderer (object.go Introspect, part_001/002) -/

/-- The "out" arguments rendered by `Method.Introspect`: the loop runs up
to `NumReturns` and additionally skips a last error-typed position. -/
def introOutArgs (outs : List GoType) : List IntroArg :=
  (List.range (numReturns outs)).filterMap (fun j =>
    if j = numReturns outs - 1 ∧ isErrType (outs.getD j GoType.tstring)
    then none
    else some ⟨outs.getD j GoType.tstring, "out"⟩)

/-- Translation of `Method.Introspect`: the rendered operation lists its
"in" arguments (caller-identity slots hidden) followed by its "out"
arguments (trailing error hidden). -/
def renderMethod (nm : String) (m : RMethod) : IntroMethod :=
  ⟨nm, introInArgs m.ins ++ introOutArgs m.outs⟩

/-- Translation of `Interface.Introspect`: render the operation of every
name the binding's interface type declares, name-sorted.  A declared name
absent from the implementation map cannot occur on bindings built by
`AsInterface` (Go would dereference a nil method) and is skipped. -/
def renderIface (nm : String) (ifc : RIface) : IntroInterface :=
  ⟨nm, sortByName (fun mm : IntroMethod => mm.name)
    (ifc.typ.filterMap (fun p => (lookupA ifc.impl p.1).map (renderMethod p.1)))⟩

mutual
/-- Translation of `Object.Introspect`: a node renders its name, its
capability section — empty when it has no implementation (`hasActions`) —
and its children, both deterministically name-sorted. -/
def nodeIntrospect : RNode → IntroNode
  | RNode.mk nm impl ifs _ objs =>
    IntroNode.mk nm
      (match impl with
       | none => []
       | some _ =>
         sortByName (fun x : IntroInterface => x.name)
           (ifs.map (fun p => renderIface p.1 p.2)))
      (sortByName (fun x : IntroNode => x.name) (introChildren objs))

/-- The rendering loop over the child map. -/
def introChildren : List (String × RNode) → List IntroNode
  | [] => []
  | (_, c) :: rest => nodeIntrospect c :: introChildren rest
end

/-- Translation of `newIntrospection`'s document body: the node's own
rendering with its name cleared (the busctl root-name convention). -/
def rootRender (o : RNode) : IntroNode :=
  match nodeIntrospect o with
  | IntroNode.mk _ ifs ch => IntroNode.mk "" ifs ch

/-- A concrete node for the C9 witness: an implementation-backed node
with the built-in bindings and two children added in non-sorted order. -/
def c9Node : RNode :=
  RNode.mk "n" (some ⟨[]⟩) builtinInterfaces []
    [("zeta", RNode.mk "zeta" none builtinInterfaces [] []),
     ("alpha", RNode.mk "alpha" none builtinInterfaces [] [])]

/-- A concrete registry root for the C10 witness: a matching listener on
the root itself and one on a child. -/
def c10Root : RNode :=
  RNode.mk "" none []
    [("com.example.Sig",
      ⟨[("Notify", ⟨[], []⟩)], [("Notify", ⟨[], [], fun _ => []⟩)]⟩)]
    [("child", RNode.mk "child" none []
      [("com.example.Sig",
        ⟨[("Notify", ⟨[], []⟩)], [("Notify", ⟨[], [], fun _ => []⟩)]⟩)] [])]

/-! ## Claim C8: exact delivery counts -/

/-- WfNode states the invariant Go's map representation provides: every
child map in the tree has unique keys. -/
inductive WfNode : RNode → Prop where
  | mk : ∀ (n : String) (i : Option RObj) (a ls : List (String × RIface))
      (objs : List (String × RNode)),
      (objs.map Prod.fst).Nodup →
      (∀ p ∈ objs, WfNode p.2) → WfNode (RNode.mk n i a ls objs)

/-- The number of recorded invocations of the listener at a given path
with the given capability, operation and payload. -/
def evCount (l : List SEvent) (pth : List String)
    (iface member : String) (body : List GoVal) : Nat :=
  l.countP (fun e => decide (e = SEvent.mk pth iface member body))

/-- The number of invocations the claim predicts for the node a path
resolves to: one when it holds a matching listener, none otherwise. -/
def pathCount (o : RNode) (q : List String) (iface member : String) : Nat :=
  match lookupPath o q with
  | some n => if listensTo n iface member then 1 else 0
  | none => 0

/-- A concrete tree for the C8 witness: listeners for the pair
("com.example.Sig", "Notify") on the two children of the root. -/
def c8Tree : RNode :=
  RNode.mk "" none builtinInterfaces []
    [("n1", RNode.mk "n1" (some ⟨[]⟩) builtinInterfaces
      [("com.example.Sig",
        ⟨[("Notify", ⟨[GoType.tint], []⟩)],
         [("Notify", ⟨[GoType.tint], [], fun _ => []⟩)]⟩)] []),
     ("n2", RNode.mk "n2" (some ⟨[]⟩) builtinInterfaces
      [("com.example.Sig",
        ⟨[("Notify", ⟨[GoType.tint], []⟩)],
         [("Notify", ⟨[GoType.tint], [], fun _ => []⟩)]⟩)] [])]

/-! ## Claim C2: deletion and upward pruning -/

/-- The operation implementing `Notify` in the C2 scenario. -/
def c2Method : RMethod := ⟨[], [], fun _ => []⟩

/-- The implementation installed at /a by the second `NewObject` call. -/
def c2ImplA : RObj := ⟨[("Notify", c2Method)]⟩

/-- The implementation installed at the leaf /a/b/c. -/
def c2ImplC : RObj := ⟨[]⟩

/-- The listener interface bound on /a by `Receives`: per `AsInterface`,
its operations are drawn from the node's own implementation. -/
def c2ListenerIface : RIface :=
  ⟨[("Notify", ⟨[], []⟩)], [("Notify", c2Method)]⟩

/-- The initial heap: only the root, allocated at reference 0 with no
implementation and no parent (`newObjectFromImpl("", nil, nil, nil)` in
`NewAnonymousBusManager`, dbus.go:29). -/
def c2Heap0 : Heap := ⟨[(0, mkHNode "" none none)], 1⟩

/-- The heap after `NewObject("/a/b/c", implC)` — which builds
placeholders at /a and /a/b — then `NewObject("/a", implA)` — which
replaces the placeholder at /a, adopting its child b — then `Receives`
binding a listener on the live /a. -/
def c2HeapReady : Heap :=
  heapReceives
    (heapNewObject (heapNewObject c2Heap0 0 ["a", "b", "c"] (some c2ImplC))
      0 ["a"] (some c2ImplA))
    ["a"] "com.example.Sig" c2ListenerIface

/-- The heap after `DeleteObject("/a/b/c")` on `c2HeapReady`.  The parent
chains of this heap have height at most 3, so fuel 8 is ample. -/
def c2HeapDeleted : Heap := heapDelObject 8 c2HeapReady 0 ["a", "b", "c"]

/-! ## Claim C1 -/

/-- Positional zip comparison with a length check is list equality. -/
theorem zip_all_eq_iff (l1 l2 : List GoType) :
    (decide (l1.length = l2.length) &&
      (l1.zip l2).all (fun q => decide (q.1 = q.2))) = true ↔ l1 = l2 := by
  induction l1 generalizing l2 with
  | nil => cases l2 <;> simp [List.zip]
  | cons a t ih =>
    cases l2 with
    | nil => simp
    | cons b t2 =>
      simp only [List.length_cons, List.zip_cons_cons, List.all_cons,
        Bool.and_eq_true, decide_eq_true_eq, List.cons.injEq]
      constructor
      · rintro ⟨hl, hab, hall⟩
        have hl' : t.length = t2.length := by omega
        exact ⟨hab, (ih t2).mp (by simp [hl', hall])⟩
      · rintro ⟨hab, ht⟩
        have := (ih t2).mpr ht
        simp only [Bool.and_eq_true, decide_eq_true_eq] at this
        exact ⟨by omega, hab, this.2⟩

/-- A successful lookup means the key occurs among the stored keys. -/
theorem lookupA_mem_keys {α : Type} {l : List (String × α)} {k : String} {v : α}
    (h : lookupA l k = some v) : k ∈ l.map Prod.fst := by
  induction l with
  | nil => simp [lookupA] at h
  | cons p rest ih =>
    simp only [lookupA] at h
    by_cases hp : p.1 = k
    · simp [hp]
    · simp only [hp, if_false] at h
      simp [ih h]

/-- A nodup list of strings included in another list is no longer. -/
theorem nodup_subset_length_le {l1 l2 : List String}
    (hnd : l1.Nodup) (hsub : ∀ x ∈ l1, x ∈ l2) : l1.length ≤ l2.length := by
  have h1 : l1.toFinset.card = l1.length := List.toFinset_card_of_nodup hnd
  have h2 : l1.toFinset ⊆ l2.toFinset := by
    intro x hx
    rw [List.mem_toFinset] at hx ⊢
    exact hsub x hx
  calc l1.length = l1.toFinset.card := h1.symm
    _ ≤ l2.toFinset.card := Finset.card_le_card h2
    _ ≤ l2.length := by simpa using List.toFinset_card_le (l := l2)

/-- Claim C1 (amended): `Object.Implements` returns false for a nil
required descriptor, and — when the required field set is satisfied — it
returns true iff every required operation is present in the candidate
with identical argument-type and return-type sequences compared verbatim,
with no trailing-error exclusion; extra candidate operations are ignored
and an empty required descriptor matches any candidate. -/
theorem c1_theorem :
    (∀ o : RObjDesc, objImplements none o = false) ∧
    (∀ (i : RInterfaceType) (o : RObjDesc),
      (i.methods.map Prod.fst).Nodup →
      isSubsetOfProperties i.properties o.properties = true →
      (objImplements (some i) o = true ↔
        ∀ p ∈ i.methods, ∃ mty, lookupA o.methods p.1 = some mty ∧
          p.2.ins = mty.ins ∧ p.2.outs = mty.outs)) := by
  constructor
  · intro o; rfl
  · intro i o hnd hprops
    simp only [objImplements, Bool.and_eq_true, hprops, and_true]
    unfold isSubsetOfMethods
    constructor
    · intro h
      split at h
      · exact absurd h (by simp)
      · intro p hp
        have hall := List.all_eq_true.mp h p hp
        cases hlk : lookupA o.methods p.1 with
        | none => rw [hlk] at hall; simp at hall
        | some mty =>
          rw [hlk] at hall
          simp only [Bool.and_eq_true] at hall
          exact ⟨mty, rfl,
            (zip_all_eq_iff p.2.ins mty.ins).mp
              (by rw [Bool.and_eq_true]; exact ⟨hall.1.1.1, hall.1.2⟩),
            (zip_all_eq_iff p.2.outs mty.outs).mp
              (by rw [Bool.and_eq_true]; exact ⟨hall.1.1.2, hall.2⟩)⟩
    · intro h
      have hlen : i.methods.length ≤ o.methods.length := by
        have := nodup_subset_length_le hnd (fun x hx => by
          obtain ⟨p, hp, rfl⟩ := List.mem_map.mp hx
          obtain ⟨mty, hlk, _⟩ := h p hp
          exact lookupA_mem_keys hlk)
        simpa using this
      rw [if_neg (by omega)]
      refine List.all_eq_true.mpr (fun p hp => ?_)
      obtain ⟨mty, hlk, hins, houts⟩ := h p hp
      rw [hlk]
      have h1 := (zip_all_eq_iff p.2.ins mty.ins).mpr hins
      have h2 := (zip_all_eq_iff p.2.outs mty.outs).mpr houts
      simp only [Bool.and_eq_true] at h1 h2 ⊢
      exact ⟨⟨⟨h1.1, h2.1⟩, h1.2⟩, h2.2⟩

/-- Witness for C1: a required descriptor with one operation matches a
candidate exposing that operation (plus an extra one) with identical
signatures, and a nil descriptor never matches. -/
theorem c1_witness :
    objImplements none ⟨[], []⟩ = false ∧
    objImplements
      (some ⟨[("CallMe", ⟨[GoType.tstring], [GoType.tstring]⟩)], []⟩)
      ⟨[("CallMe", ⟨[GoType.tstring], [GoType.tstring]⟩),
        ("CallMe2", ⟨[], [GoType.tint]⟩)], []⟩ = true :=
  ⟨c1_theorem.1 ⟨[], []⟩,
    (c1_theorem.2 ⟨[("CallMe", ⟨[GoType.tstring], [GoType.tstring]⟩)], []⟩
      ⟨[("CallMe", ⟨[GoType.tstring], [GoType.tstring]⟩),
        ("CallMe2", ⟨[], [GoType.tint]⟩)], []⟩
      (by decide) (by decide)).mpr (by decide)⟩

/-- Counterexample for C1 as stated: the claim's matcher (trailing
error-typed returns excluded on both sides) accepts a required operation
returning only `error` against a candidate operation with no returns, but
the code's matcher compares return lists verbatim and rejects it. -/
theorem c1_counterexample :
    satisfiesSpec (some ⟨[("M", ⟨[], [GoType.terror]⟩)], []⟩)
      ⟨[("M", ⟨[], []⟩)], []⟩ = true ∧
    objImplements (some ⟨[("M", ⟨[], [GoType.terror]⟩)], []⟩)
      ⟨[("M", ⟨[], []⟩)], []⟩ = false := by
  decide

/-! ## Claim C4 -/

/-- Indexing a list at its last position with a default yields the value
reported by `getLast?`. -/
theorem getD_eq_of_getLast? {l : List GoVal} {v : GoVal} (d : GoVal)
    (h : l.getLast? = some v) : l.getD (l.length - 1) d = v := by
  induction l with
  | nil => simp at h
  | cons a t ih =>
    cases t with
    | nil =>
      simp only [List.getLast?_singleton, Option.some.injEq] at h
      simp [h]
    | cons b t2 =>
      rw [List.getLast?_cons_cons] at h
      have := ih h
      simpa using this

/-- Claim C4: for every invocation through `Method.Call`, when the last
declared return type implements `error` that slot is dropped from the
delivered results and a non-nil value in it is returned as the call's
failure; otherwise all returned values are delivered and no failure is
reported.  The first hypothesis states what Go's reflect guarantees: the
invoked function returns exactly as many values as it declares. -/
theorem c4_theorem (m : RMethod) (args : List GoVal)
    (hlen : (m.run args).length = m.outs.length) :
    (lastIsErr m.outs = true →
      (methodCall m args).1 = (m.run args).dropLast ∧
      ∀ v, (m.run args).getLast? = some v →
        (methodCall m args).2 =
          (if v ≠ GoVal.nilv then some v else none)) ∧
    (lastIsErr m.outs = false →
      methodCall m args = (m.run args, none)) := by
  constructor
  · intro herr
    constructor
    · simp only [methodCall, herr, if_true]
      rw [← hlen, ← List.dropLast_eq_take]
    · intro v hv
      simp only [methodCall, herr, if_true]
      rw [← hlen, getD_eq_of_getLast? GoVal.nilv hv]
  · intro herr
    simp [methodCall, herr]

/-- Witness for C4: a concrete two-return operation whose last declared
return is `error`; with a nil error value the result list drops the error
slot and no failure is reported. -/
theorem c4_witness :
    (methodCall
      ⟨[], [GoType.tstring, GoType.terror],
        fun _ => [GoVal.strv "hello, world", GoVal.nilv]⟩ []).1 =
      [GoVal.strv "hello, world"] ∧
    (methodCall
      ⟨[], [GoType.tstring, GoType.terror],
        fun _ => [GoVal.strv "hello, world", GoVal.nilv]⟩ []).2 = none := by
  have h := (c4_theorem
    ⟨[], [GoType.tstring, GoType.terror],
      fun _ => [GoVal.strv "hello, world", GoVal.nilv]⟩ [] rfl).1 rfl
  exact ⟨h.1.trans rfl, (h.2 GoVal.nilv rfl).trans rfl⟩

/-- When the arity matches, the filled argument list covers every slot. -/
theorem fillArgs_length {ins : List GoType} {body : List GoVal} {s : String}
    (h : (decodeList ins).length = body.length) :
    (fillArgs ins s body).length = ins.length := by
  induction ins generalizing body with
  | nil => simp [fillArgs]
  | cons t ts ih =>
    by_cases ht : t = GoType.tsender
    · simp only [decodeList, List.filter_cons, ht] at h
      simp only [fillArgs, ht, if_true, List.length_cons]
      rw [ih (by simpa [decodeList] using h)]
    · simp only [decodeList, List.filter_cons, ht] at h
      cases body with
      | nil => simp at h
      | cons v vs2 =>
        simp only [fillArgs, ht, if_false, List.length_cons]
        have h2 : (decodeList ts).length = vs2.length := by
          simpa [decodeList, ht] using h
        rw [ih h2]

/-- Every caller-identity slot of the filled list is the synthesized
sender value. -/
theorem fillArgs_sender {ins : List GoType} {body : List GoVal} {s : String}
    (h : (decodeList ins).length = body.length) :
    ∀ i, (hi : i < ins.length) → ins[i] = GoType.tsender →
      (fillArgs ins s body)[i]? = some (GoVal.senderv s) := by
  induction ins generalizing body with
  | nil => intro i hi; simp at hi
  | cons t ts ih =>
    intro i hi hsend
    by_cases ht : t = GoType.tsender
    · simp only [fillArgs, ht, if_true]
      cases i with
      | zero => simp
      | succ j =>
        have h2 : (decodeList ts).length = body.length := by
          simpa [decodeList, ht] using h
        have hj : j < ts.length := by simpa using hi
        have := ih h2 j hj (by simpa using hsend)
        simpa using this
    · cases i with
      | zero => exact absurd (by simpa using hsend) ht
      | succ j =>
        simp only [decodeList, List.filter_cons, ht] at h
        cases body with
        | nil => simp at h
        | cons v vs2 =>
          have h2 : (decodeList ts).length = vs2.length := by
            simpa [decodeList, ht] using h
          have hj : j < ts.length := by simpa using hi
          have := ih h2 j hj (by simpa using hsend)
          simp only [fillArgs, ht, if_false]
          simpa using this

/-- The non-sender slots of the filled list are exactly the payload, in
order: no payload value is consumed by a caller-identity slot. -/
theorem fillArgs_nonsender {ins : List GoType} {body : List GoVal} {s : String}
    (h : (decodeList ins).length = body.length) :
    nonSenderVals ins (fillArgs ins s body) = body := by
  induction ins generalizing body with
  | nil =>
    simp only [decodeList, List.filter_nil, List.length_nil] at h
    simp [fillArgs, nonSenderVals, (List.eq_nil_of_length_eq_zero h.symm)]
  | cons t ts ih =>
    by_cases ht : t = GoType.tsender
    · have h2 : (decodeList ts).length = body.length := by
        simpa [decodeList, ht] using h
      simp only [fillArgs, ht, if_true, nonSenderVals, List.zip_cons_cons,
        List.filterMap_cons, if_true]
      simpa [nonSenderVals] using ih h2
    · simp only [decodeList, List.filter_cons, ht] at h
      cases body with
      | nil => simp at h
      | cons v vs2 =>
        have h2 : (decodeList ts).length = vs2.length := by
          simpa [decodeList, ht] using h
        simp only [fillArgs, ht, if_false, nonSenderVals, List.zip_cons_cons,
          List.filterMap_cons]
        simpa [nonSenderVals, ht] using ih h2

/-- Claim C5: caller-identity parameters are synthesized from the bound
sender, not decoded from the payload, and are excluded both from the
decode arity and from the rendered "in" argument listing; decoding fails
with the invalid-argument error exactly when the externally-decodable slot
count differs from the payload length or structural decoding fails. -/
theorem c5_theorem (ins : List GoType) (sender : String) (body : List GoVal) :
    (decodeArguments ins sender body = Except.error DbusErr.invalidArg ↔
      ¬((decodeList ins).length = body.length ∧
        storeOk (decodeList ins) body = true)) ∧
    (∀ out, decodeArguments ins sender body = Except.ok out →
      (∀ i, (hi : i < ins.length) → ins[i] = GoType.tsender →
        out[i]? = some (GoVal.senderv sender)) ∧
      nonSenderVals ins out = body ∧ out.length = ins.length) ∧
    (∀ a ∈ introInArgs ins, ¬(a.typ = GoType.tsender)) ∧
    (introInArgs ins).length = (decodeList ins).length := by
  refine ⟨?_, ?_, ?_, ?_⟩
  · unfold decodeArguments
    by_cases hlen : (decodeList ins).length = body.length
    · by_cases hst : storeOk (decodeList ins) body
      · simp [hlen, hst]
      · simp [hlen, hst]
    · simp [hlen]
  · intro out hout
    unfold decodeArguments at hout
    by_cases hlen : (decodeList ins).length = body.length
    · by_cases hst : storeOk (decodeList ins) body
      · rw [if_neg (by simp [hlen]), if_pos hst] at hout
        rw [Except.ok.injEq] at hout
        subst hout
        exact ⟨fillArgs_sender hlen, fillArgs_nonsender hlen, fillArgs_length hlen⟩
      · simp [hlen, hst] at hout
    · simp [hlen] at hout
  · intro a ha
    simp only [introInArgs, List.mem_map, List.mem_filter] at ha
    obtain ⟨t, ⟨_, ht⟩, rfl⟩ := ha
    simpa using ht
  · simp [introInArgs, decodeList]

/-- Witness for C5: an operation `(dbus.Sender, string) → ()` decodes a
one-value payload, synthesizing the sender slot and placing the payload
value in the remaining slot. -/
theorem c5_witness :
    decodeArguments [GoType.tsender, GoType.tstring] ":1.7"
        [GoVal.strv "hi"] =
      Except.ok [GoVal.senderv ":1.7", GoVal.strv "hi"] ∧
    decodeArguments [GoType.tsender, GoType.tstring] ":1.7" [] =
      Except.error DbusErr.invalidArg := by
  constructor
  · rfl
  · exact ((c5_theorem [GoType.tsender, GoType.tstring] ":1.7" []).1).mpr
      (by decide)

/-! ## Association-list lemmas -/

/-- Lookup distributes over append: the left list wins when it has the key. -/
theorem lookupA_append {α : Type} (l1 l2 : List (String × α)) (k : String) :
    lookupA (l1 ++ l2) k =
      match lookupA l1 k with
      | some v => some v
      | none => lookupA l2 k := by
  induction l1 with
  | nil => simp [lookupA]
  | cons p rest ih =>
    by_cases hp : p.1 = k
    · simp [lookupA, hp]
    · simp [lookupA, hp, ih]

/-- Unfolding lookup at a cons cell. -/
theorem lookupA_cons {α : Type} (p : String × α) (rest : List (String × α))
    (k : String) :
    lookupA (p :: rest) k = if p.1 = k then some p.2 else lookupA rest k := rfl

/-- Unfolding overwrite at a cons cell. -/
theorem updateA_cons {α : Type} (p : String × α) (rest : List (String × α))
    (k : String) (v : α) :
    updateA (p :: rest) k v =
      (if p.1 = k then (p.1, v) else p) :: updateA rest k v := rfl

/-- Overwriting a key that is present makes lookup return the new value. -/
theorem lookupA_updateA_same {α : Type} {l : List (String × α)} {k : String}
    {w : α} (hk : lookupA l k = some w) (v : α) :
    lookupA (updateA l k v) k = some v := by
  induction l with
  | nil => simp [lookupA] at hk
  | cons p rest ih =>
    rw [updateA_cons]
    by_cases hp : p.1 = k
    · rw [if_pos hp, lookupA_cons, if_pos hp]
    · rw [lookupA_cons, if_neg hp] at hk
      rw [if_neg hp, lookupA_cons, if_neg hp]
      exact ih hk

/-- Overwriting one key leaves lookups of other keys unchanged. -/
theorem lookupA_updateA_other {α : Type} (l : List (String × α))
    (k k' : String) (v : α) (h : ¬(k' = k)) :
    lookupA (updateA l k v) k' = lookupA l k' := by
  induction l with
  | nil => simp [lookupA, updateA]
  | cons p rest ih =>
    rw [updateA_cons]
    by_cases hp : p.1 = k
    · have hne : ¬(p.1 = k') := by
        rw [hp]; exact fun he => h he.symm
      rw [if_pos hp, lookupA_cons, lookupA_cons, if_neg hne, if_neg hne, ih]
    · rw [if_neg hp, lookupA_cons, lookupA_cons]
      by_cases hp' : p.1 = k'
      · rw [if_pos hp', if_pos hp']
      · rw [if_neg hp', if_neg hp', ih]

/-- Insert-or-overwrite makes lookup return the new value. -/
theorem lookupA_setA_same {α : Type} (l : List (String × α)) (k : String)
    (v : α) : lookupA (setA l k v) k = some v := by
  unfold setA
  cases hk : lookupA l k with
  | some w => exact lookupA_updateA_same hk v
  | none => rw [lookupA_append, hk]; simp [lookupA]

/-- Insert-or-overwrite of one key leaves other keys unchanged. -/
theorem lookupA_setA_other {α : Type} (l : List (String × α))
    (k k' : String) (v : α) (h : ¬(k' = k)) :
    lookupA (setA l k v) k' = lookupA l k' := by
  unfold setA
  cases hk : lookupA l k with
  | some w => exact lookupA_updateA_other l k k' v h
  | none =>
    rw [lookupA_append]
    cases hk' : lookupA l k' with
    | some w => rfl
    | none =>
      rw [lookupA_cons, if_neg (fun he : k = k' => h he.symm)]
      rfl

/-- One manager step moves each key's count exactly as `refStep` says. -/
theorem getRef_applyOp (s : MgrState) (op : SigOp) (k : String) :
    getRef (applyOp s op).1 k = refStep k (getRef s k) op := by
  cases op with
  | add i m =>
    by_cases hk : mkSignalKey i m = k
    · subst hk
      simp [applyOp, addMatchSignal, refStep, getRef, setRef, lookupA_setA_same]
    · simp only [applyOp, addMatchSignal, refStep, hk, if_false]
      simp [getRef, setRef, lookupA_setA_other _ _ _ _ (fun h => hk h.symm)]
  | remove i m =>
    by_cases hz : getRef s (mkSignalKey i m) = 0
    · by_cases hk : mkSignalKey i m = k
      · subst hk
        simp [applyOp, removeMatchSignal, refStep, hz]
      · simp [applyOp, removeMatchSignal, refStep, hz, hk]
    · by_cases hk : mkSignalKey i m = k
      · subst hk
        simp only [applyOp, removeMatchSignal, if_neg hz, refStep]
        rw [if_pos (show True ∧ getRef s (mkSignalKey i m) ≠ 0 from
          ⟨trivial, hz⟩)]
        simp [getRef, setRef, lookupA_setA_same]
      · simp only [applyOp, removeMatchSignal, if_neg hz, refStep]
        rw [if_neg (fun hc => hk hc.1)]
        simp [getRef, setRef, lookupA_setA_other _ _ _ _ (fun h => hk h.symm)]

/-- The subscribe calls one manager step emits for a given pair: exactly
one, exactly when the step is an addition of that pair at count 0. -/
theorem countSubs_applyOp (s : MgrState) (op : SigOp) (i m : String) :
    ((applyOp s op).2.countP (fun c => decide (c = BusCall.addMatch i m))) =
      if op = SigOp.add i m ∧ getRef s (mkSignalKey i m) = 0 then 1 else 0 := by
  cases op with
  | add i' m' =>
    by_cases he : i' = i ∧ m' = m
    · obtain ⟨rfl, rfl⟩ := he
      by_cases hz : getRef s (mkSignalKey i' m') = 0
      · simp [applyOp, addMatchSignal, hz]
      · simp [applyOp, addMatchSignal, hz]
    · have hne : ¬(SigOp.add i' m' = SigOp.add i m) := by
        intro hcon
        cases hcon
        exact he ⟨rfl, rfl⟩
      have hne2 : ¬(BusCall.addMatch i' m' = BusCall.addMatch i m) := by
        intro hcon
        cases hcon
        exact he ⟨rfl, rfl⟩
      by_cases hz : getRef s (mkSignalKey i' m') = 0
      · simp [applyOp, addMatchSignal, hz, hne, hne2]
      · simp [applyOp, addMatchSignal, hz, hne]
  | remove i' m' =>
    by_cases hz : getRef s (mkSignalKey i' m') = 0
    · simp [applyOp, removeMatchSignal, hz]
    · by_cases h1 : getRef s (mkSignalKey i' m') - 1 = 0
      · simp [applyOp, removeMatchSignal, hz, h1]
      · simp [applyOp, removeMatchSignal, hz, h1]

/-- The unsubscribe calls one manager step emits for a given pair: exactly
one, exactly when the step is a removal of that pair at count 1. -/
theorem countUnsubs_applyOp (s : MgrState) (op : SigOp) (i m : String) :
    ((applyOp s op).2.countP (fun c => decide (c = BusCall.removeMatch i m))) =
      if op = SigOp.remove i m ∧ getRef s (mkSignalKey i m) = 1 then 1 else 0 := by
  cases op with
  | add i' m' =>
    by_cases hz : getRef s (mkSignalKey i' m') = 0
    · simp [applyOp, addMatchSignal, hz]
    · simp [applyOp, addMatchSignal, hz]
  | remove i' m' =>
    by_cases he : i' = i ∧ m' = m
    · obtain ⟨rfl, rfl⟩ := he
      by_cases hz : getRef s (mkSignalKey i' m') = 0
      · simp [applyOp, removeMatchSignal, hz]
      · by_cases h1 : getRef s (mkSignalKey i' m') = 1
        · simp [applyOp, removeMatchSignal, hz, h1]
        · have : ¬(getRef s (mkSignalKey i' m') - 1 = 0) := by omega
          simp [applyOp, removeMatchSignal, hz, this, h1]
    · have hne : ¬(SigOp.remove i' m' = SigOp.remove i m) := by
        intro hcon
        cases hcon
        exact he ⟨rfl, rfl⟩
      have hne2 : ¬(BusCall.removeMatch i' m' = BusCall.removeMatch i m) := by
        intro hcon
        cases hcon
        exact he ⟨rfl, rfl⟩
      by_cases hz : getRef s (mkSignalKey i' m') = 0
      · simp [applyOp, removeMatchSignal, hz, hne]
      · by_cases h1 : getRef s (mkSignalKey i' m') - 1 = 0
        · simp [applyOp, removeMatchSignal, hz, h1, hne, hne2]
        · simp [applyOp, removeMatchSignal, hz, h1, hne]

/-- Along any trace, the subscribe calls for a pair are counted by the
0-to-1 transitions of its shared reference count. -/
theorem countSubs_runOps (ops : List SigOp) :
    ∀ (s : MgrState) (i m : String),
    ((runOps s ops).2.countP (fun c => decide (c = BusCall.addMatch i m))) =
      subsSpec i m (getRef s (mkSignalKey i m)) ops := by
  induction ops with
  | nil => intro s i m; simp [runOps, subsSpec]
  | cons op rest ih =>
    intro s i m
    simp only [runOps, List.countP_append, subsSpec]
    rw [countSubs_applyOp, ih, getRef_applyOp]

/-- Along any trace, the unsubscribe calls for a pair are counted by the
transitions of its shared reference count to 0. -/
theorem countUnsubs_runOps (ops : List SigOp) :
    ∀ (s : MgrState) (i m : String),
    ((runOps s ops).2.countP (fun c => decide (c = BusCall.removeMatch i m))) =
      unsubsSpec i m (getRef s (mkSignalKey i m)) ops := by
  induction ops with
  | nil => intro s i m; simp [runOps, unsubsSpec]
  | cons op rest ih =>
    intro s i m
    simp only [runOps, List.countP_append, unsubsSpec]
    rw [countUnsubs_applyOp, ih, getRef_applyOp]

/-- Claim C3: over any sequence of listener registrations and removals,
the transport subscribe call for a pair is issued exactly on the
0-to-1 transitions of the shared reference count, the unsubscribe call
exactly on its transitions to 0, and a removal at count 0 changes nothing
and issues no transport call. -/
theorem c3_theorem (ops : List SigOp) (i m : String) :
    ((runOps mgrInit ops).2.countP
        (fun c => decide (c = BusCall.addMatch i m)) =
      subsSpec i m 0 ops) ∧
    ((runOps mgrInit ops).2.countP
        (fun c => decide (c = BusCall.removeMatch i m)) =
      unsubsSpec i m 0 ops) ∧
    (∀ s : MgrState, getRef s (mkSignalKey i m) = 0 →
      removeMatchSignal s i m = (s, [])) := by
  refine ⟨countSubs_runOps ops mgrInit i m, countUnsubs_runOps ops mgrInit i m,
    fun s hz => ?_⟩
  simp [removeMatchSignal, hz]

/-- Witness for C3: the example trace issues exactly one subscribe and one
unsubscribe, and a removal on the empty manager is a no-op. -/
theorem c3_witness :
    ((runOps mgrInit twoListenerTrace).2.countP
        (fun c => decide (c = BusCall.addMatch "X" "Y")) = 1) ∧
    ((runOps mgrInit twoListenerTrace).2.countP
        (fun c => decide (c = BusCall.removeMatch "X" "Y")) = 1) ∧
    removeMatchSignal mgrInit "X" "Y" = (mgrInit, []) :=
  ⟨((c3_theorem twoListenerTrace "X" "Y").1).trans (by decide),
   ((c3_theorem twoListenerTrace "X" "Y").2.1).trans (by decide),
   (c3_theorem twoListenerTrace "X" "Y").2.2 mgrInit rfl⟩

/-! ## Claim C6 -/

/-- Claim C6: `Object.Call` fails with the unknown-capability error when
the node has no exported binding of the capability name; otherwise it
fails with the unknown-operation error when the binding's declared
interface type does not name the operation — even if the implementation
map holds an operation of that name; otherwise it delegates to the
operation handle.  In both error cases the node is returned unchanged. -/
theorem c6_theorem (o : RNode) (ifaceName member : String) (args : List GoVal) :
    (lookupA o.interfaces ifaceName = none →
      objectCall o ifaceName member args =
        (Except.error DbusErr.unknownInterface, o)) ∧
    (∀ ifc, lookupA o.interfaces ifaceName = some ifc →
      lookupA ifc.typ member = none →
      objectCall o ifaceName member args =
        (Except.error DbusErr.unknownMethod, o)) ∧
    (∀ ifc m, lookupA o.interfaces ifaceName = some ifc →
      ifaceLookupMethod ifc member = some m →
      objectCall o ifaceName member args =
        (Except.ok (methodCall m args), o)) := by
  refine ⟨?_, ?_, ?_⟩
  · intro h
    simp [objectCall, h]
  · intro ifc h htyp
    simp [objectCall, h, ifaceLookupMethod, htyp]
  · intro ifc m h hm
    simp [objectCall, h, hm]

/-- Witness for C6: an unknown capability name and an operation that the
implementation defines but the binding's declared type does not both fail
with the claimed errors and leave the node untouched; a declared
operation is delegated. -/
theorem c6_witness :
    objectCall c6Node "com.example.Other" "CallMe" [] =
      (Except.error DbusErr.unknownInterface, c6Node) ∧
    objectCall c6Node "com.example.I" "CallMe2" [] =
      (Except.error DbusErr.unknownMethod, c6Node) ∧
    objectCall c6Node "com.example.I" "CallMe" [] =
      (Except.ok (methodCall ⟨[], [], fun _ => []⟩ []), c6Node) :=
  ⟨(c6_theorem c6Node "com.example.Other" "CallMe" []).1 rfl,
   (c6_theorem c6Node "com.example.I" "CallMe2" []).2.1 _ rfl rfl,
   (c6_theorem c6Node "com.example.I" "CallMe" []).2.2 _ _ rfl rfl⟩

/-! ## Claim C7 -/

/-- Claim C7: registering an implementation at the three-segment path
a/b/c under a root with no child named a creates placeholder nodes at
a and a/b — no implementation, only the built-in bindings, no listeners —
and the node at a/b/c holds the implementation. -/
theorem c7_theorem (root : RNode) (a b c : String) (impl : RObj)
    (h : lookupA root.objects a = none) :
    (∃ leaf, lookupPath (newObject root [a, b, c] (some impl)) [a, b, c] =
        some leaf ∧ leaf.impl = some impl ∧
        leaf.interfaces = builtinInterfaces ∧ leaf.listeners = []) ∧
    (∃ n1, lookupPath (newObject root [a, b, c] (some impl)) [a] = some n1 ∧
      n1.impl = none ∧ n1.interfaces = builtinInterfaces ∧ n1.listeners = []) ∧
    (∃ n2, lookupPath (newObject root [a, b, c] (some impl)) [a, b] = some n2 ∧
      n2.impl = none ∧ n2.interfaces = builtinInterfaces ∧ n2.listeners = []) := by
  have hstep : newObject root [a, b, c] (some impl) =
      root.withObjects (root.objects ++
        [(a, RNode.mk a none builtinInterfaces []
          [(b, RNode.mk b none builtinInterfaces []
            [(c, RNode.mk c (some impl) builtinInterfaces [] [])])])]) := by
    unfold newObject
    rw [h]
    rfl
  have hobjs : (newObject root [a, b, c] (some impl)).objects =
      root.objects ++
        [(a, RNode.mk a none builtinInterfaces []
          [(b, RNode.mk b none builtinInterfaces []
            [(c, RNode.mk c (some impl) builtinInterfaces [] [])])])] := by
    rw [hstep]
    cases root with
    | mk n i x y o => rfl
  have hA : lookupA (newObject root [a, b, c] (some impl)).objects a =
      some (RNode.mk a none builtinInterfaces []
        [(b, RNode.mk b none builtinInterfaces []
          [(c, RNode.mk c (some impl) builtinInterfaces [] [])])]) := by
    rw [hobjs, lookupA_append, h]
    simp [lookupA]
  refine ⟨⟨RNode.mk c (some impl) builtinInterfaces [] [], ?_, rfl, rfl, rfl⟩,
    ⟨RNode.mk a none builtinInterfaces []
      [(b, RNode.mk b none builtinInterfaces []
        [(c, RNode.mk c (some impl) builtinInterfaces [] [])])], ?_, rfl, rfl, rfl⟩,
    ⟨RNode.mk b none builtinInterfaces []
      [(c, RNode.mk c (some impl) builtinInterfaces [] [])], ?_, rfl, rfl, rfl⟩⟩
  · show lookupPath _ (a :: [b, c]) = _
    unfold lookupPath
    rw [hA]
    simp [lookupPath, lookupA, RNode.objects]
  · show lookupPath _ (a :: []) = _
    unfold lookupPath
    rw [hA]
    rfl
  · show lookupPath _ (a :: [b]) = _
    unfold lookupPath
    rw [hA]
    simp [lookupPath, lookupA, RNode.objects]

/-- Witness for C7: a concrete empty root and path x/y/z. -/
theorem c7_witness :
    (∃ leaf, lookupPath
        (newObject (RNode.mk "" none builtinInterfaces [] []) ["x", "y", "z"]
          (some ⟨[]⟩)) ["x", "y", "z"] = some leaf ∧
      leaf.impl = some ⟨[]⟩ ∧
      leaf.interfaces = builtinInterfaces ∧ leaf.listeners = []) ∧
    (∃ n1, lookupPath
        (newObject (RNode.mk "" none builtinInterfaces [] []) ["x", "y", "z"]
          (some ⟨[]⟩)) ["x"] = some n1 ∧
      n1.impl = none ∧ n1.interfaces = builtinInterfaces ∧ n1.listeners = []) :=
  ⟨(c7_theorem (RNode.mk "" none builtinInterfaces [] []) "x" "y" "z" ⟨[]⟩ rfl).1,
   (c7_theorem (RNode.mk "" none builtinInterfaces [] []) "x" "y" "z" ⟨[]⟩ rfl).2.1⟩

/-- Membership is preserved by ordered insert. -/
theorem mem_insertByName {α : Type} (key : α → String) (x : α)
    (l : List α) (z : α) : z ∈ insertByName key x l ↔ z = x ∨ z ∈ l := by
  induction l with
  | nil => simp [insertByName]
  | cons y rest ih =>
    simp only [insertByName]
    by_cases hxy : key x ≤ key y
    · simp [hxy]
    · simp only [hxy, if_false, List.mem_cons, ih]
      tauto

/-- Ordered insert grows the length by one. -/
theorem length_insertByName {α : Type} (key : α → String) (x : α)
    (l : List α) : (insertByName key x l).length = l.length + 1 := by
  induction l with
  | nil => rfl
  | cons y rest ih =>
    simp only [insertByName]
    by_cases hxy : key x ≤ key y
    · simp [hxy]
    · simp [hxy, ih]

/-- Ordered insert preserves sortedness by the key. -/
theorem pairwise_insertByName {α : Type} (key : α → String) (x : α)
    {l : List α} (h : List.Pairwise (fun u v => key u ≤ key v) l) :
    List.Pairwise (fun u v => key u ≤ key v) (insertByName key x l) := by
  induction l with
  | nil => simp [insertByName]
  | cons y rest ih =>
    simp only [insertByName]
    by_cases hxy : key x ≤ key y
    · rw [if_pos hxy]
      refine List.Pairwise.cons ?_ h
      intro z hz
      rcases List.mem_cons.mp hz with rfl | hz2
      · exact hxy
      · exact le_trans hxy ((List.pairwise_cons.mp h).1 z hz2)
    · rw [if_neg hxy]
      have hyx : key y ≤ key x := (le_total (key x) (key y)).resolve_left hxy
      obtain ⟨hy, hrest⟩ := List.pairwise_cons.mp h
      refine List.Pairwise.cons ?_ (ih hrest)
      intro z hz
      rcases (mem_insertByName key x rest z).mp hz with rfl | hz2
      · exact hyx
      · exact hy z hz2

/-- Membership is preserved by the sort. -/
theorem mem_sortByName {α : Type} (key : α → String) (l : List α) (z : α) :
    z ∈ sortByName key l ↔ z ∈ l := by
  induction l with
  | nil => simp [sortByName]
  | cons x rest ih =>
    simp only [sortByName]
    rw [mem_insertByName]
    simp [ih]

/-- The sort preserves length. -/
theorem length_sortByName {α : Type} (key : α → String) (l : List α) :
    (sortByName key l).length = l.length := by
  induction l with
  | nil => rfl
  | cons x rest ih =>
    simp only [sortByName]
    rw [length_insertByName, ih]
    simp

/-- The sort produces a name-sorted list. -/
theorem pairwise_sortByName {α : Type} (key : α → String) (l : List α) :
    List.Pairwise (fun u v => key u ≤ key v) (sortByName key l) := by
  induction l with
  | nil => simp [sortByName]
  | cons x rest ih =>
    exact pairwise_insertByName key x ih

/-- The rendering loop preserves the number of children. -/
theorem introChildren_length (objs : List (String × RNode)) :
    (introChildren objs).length = objs.length := by
  induction objs with
  | nil => rfl
  | cons p rest ih =>
    cases p with
    | mk nm c => simp [introChildren, ih]

/-- Every child's rendering occurs in the rendering loop's output. -/
theorem introChildren_mem (objs : List (String × RNode)) :
    ∀ p ∈ objs, nodeIntrospect p.2 ∈ introChildren objs := by
  induction objs with
  | nil => intro p hp; simp at hp
  | cons q rest ih =>
    intro p hp
    cases q with
    | mk nm c =>
      rcases List.mem_cons.mp hp with rfl | hp2
      · simp [introChildren]
      · simp [introChildren, ih p hp2]

/-- Claim C9: a node's rendered document lists its children name-sorted
and its capabilities name-sorted with name-sorted operations inside each;
a node with no implementation renders no capability section but still
renders all of its children; and the root document's name is empty. -/
theorem c9_theorem (t : RNode) :
    List.Pairwise (fun u v : IntroNode => u.name ≤ v.name)
      (nodeIntrospect t).children ∧
    List.Pairwise (fun u v : IntroInterface => u.name ≤ v.name)
      (nodeIntrospect t).interfaces ∧
    (∀ ifc ∈ (nodeIntrospect t).interfaces,
      List.Pairwise (fun u v : IntroMethod => u.name ≤ v.name) ifc.methods) ∧
    (t.impl = none → (nodeIntrospect t).interfaces = []) ∧
    (nodeIntrospect t).children.length = t.objects.length ∧
    (∀ p ∈ t.objects, nodeIntrospect p.2 ∈ (nodeIntrospect t).children) ∧
    (rootRender t).name = "" := by
  cases t with
  | mk nm impl ifs ls objs =>
    refine ⟨?_, ?_, ?_, ?_, ?_, ?_, ?_⟩
    · simp only [nodeIntrospect, IntroNode.children]
      exact pairwise_sortByName _ _
    · simp only [nodeIntrospect, IntroNode.interfaces]
      cases impl with
      | none => simp
      | some ob => exact pairwise_sortByName _ _
    · intro ifc hifc
      simp only [nodeIntrospect, IntroNode.interfaces] at hifc
      cases impl with
      | none => simp at hifc
      | some ob =>
        rw [mem_sortByName] at hifc
        obtain ⟨p, _, rfl⟩ := List.mem_map.mp hifc
        exact pairwise_sortByName _ _
    · intro hnone
      simp only [RNode.impl] at hnone
      subst hnone
      simp [nodeIntrospect, IntroNode.interfaces]
    · simp only [nodeIntrospect, IntroNode.children, RNode.objects]
      rw [length_sortByName, introChildren_length]
    · intro p hp
      simp only [nodeIntrospect, IntroNode.children]
      rw [mem_sortByName]
      exact introChildren_mem objs p (by simpa [RNode.objects] using hp)
    · simp only [rootRender]
      cases hni : nodeIntrospect (RNode.mk nm impl ifs ls objs) with
      | mk a b c => rfl

/-- Witness for C9: the concrete node's children come out name-sorted,
its capability section is sorted, a capability's operations are sorted,
and the root rendering clears the name. -/
theorem c9_witness :
    List.Pairwise (fun u v : IntroNode => u.name ≤ v.name)
      (nodeIntrospect c9Node).children ∧
    (∀ ifc ∈ (nodeIntrospect c9Node).interfaces,
      List.Pairwise (fun u v : IntroMethod => u.name ≤ v.name) ifc.methods) ∧
    (nodeIntrospect c9Node).children.length = 2 ∧
    (rootRender c9Node).name = "" :=
  ⟨(c9_theorem c9Node).1,
   (c9_theorem c9Node).2.2.1,
   ((c9_theorem c9Node).2.2.2.2.1).trans rfl,
   (c9_theorem c9Node).2.2.2.2.2.2⟩

/-! ## Signal delivery lemmas (claims C8, C10) -/

mutual
/-- Every event delivered at or below a node extends the node's own
path. -/
theorem deliverSignal_shape : ∀ (o : RNode) (iface member : String)
    (body : List GoVal) (loc : List String) (e : SEvent),
    e ∈ deliverSignal o iface member body loc → ∃ s, e.path = loc ++ s
  | RNode.mk _ _ _ ls objs, iface, member, body, loc, e, he => by
    simp only [deliverSignal] at he
    rcases List.mem_append.mp he with h1 | h2
    · refine ⟨[], ?_⟩
      cases hlk : lookupA ls iface with
      | none => simp only [hlk] at h1; simp at h1
      | some ifc =>
        simp only [hlk] at h1
        cases hm : ifaceLookupMethod ifc member with
        | none => simp only [hm] at h1; simp at h1
        | some _ =>
          simp only [hm, List.mem_singleton] at h1
          subst h1
          simp
    · obtain ⟨nm, s, hs, _⟩ :=
        deliverChildren_shape objs iface member body loc e h2
      exact ⟨nm :: s, hs⟩

/-- Every event delivered through a child map extends the node's path by
a child's key as its next segment. -/
theorem deliverChildren_shape : ∀ (objs : List (String × RNode))
    (iface member : String) (body : List GoVal) (loc : List String)
    (e : SEvent), e ∈ deliverChildren objs iface member body loc →
    ∃ nm s, e.path = loc ++ nm :: s ∧ nm ∈ objs.map Prod.fst
  | [], _, _, _, _, e, he => by simp [deliverChildren] at he
  | (nm, c) :: rest, iface, member, body, loc, e, he => by
    simp only [deliverChildren] at he
    rcases List.mem_append.mp he with h1 | h2
    · obtain ⟨s, hs⟩ :=
        deliverSignal_shape c iface member body (loc ++ [nm]) e h1
      exact ⟨nm, s, by simpa using hs, by simp⟩
    · obtain ⟨nm2, s, hs, hmem⟩ :=
        deliverChildren_shape rest iface member body loc e h2
      exact ⟨nm2, s, hs, by simp [hmem]⟩
end

/-- Claim C10: the transport-facing `BusManager.DeliverSignal` propagates
only to the root's children, so no recorded invocation belongs to the
root itself — even when the root has a matching listener binding, the
root's own invocation is exactly the one the bus entry point omits. -/
theorem c10_theorem (root : RNode) (iface member : String)
    (body : List GoVal) :
    (∀ e ∈ busDeliverSignal root iface member body, ¬(e.path = [])) ∧
    (listensTo root iface member = true →
      deliverSignal root iface member body [] =
        SEvent.mk [] iface member body ::
          busDeliverSignal root iface member body) := by
  constructor
  · intro e he hnil
    obtain ⟨nm, s, hs, _⟩ :=
      deliverChildren_shape root.objects iface member body [] e he
    rw [hnil] at hs
    simp at hs
  · intro hl
    cases root with
    | mk n i a ls objs =>
      simp only [listensTo, RNode.listeners] at hl
      cases hlk : lookupA ls iface with
      | none => simp only [hlk] at hl; simp at hl
      | some ifc =>
        simp only [hlk] at hl
        cases hm : ifaceLookupMethod ifc member with
        | none => rw [hm] at hl; simp at hl
        | some mm =>
          simp only [deliverSignal, busDeliverSignal, RNode.objects, hlk, hm]
          rfl

/-- Witness for C10: on the concrete root, the child's event is delivered
with a non-root path, and the object-level delivery differs from the bus
entry point exactly by the root's own event. -/
theorem c10_witness :
    ¬((SEvent.mk ["child"] "com.example.Sig" "Notify" []).path = []) ∧
    deliverSignal c10Root "com.example.Sig" "Notify" [] [] =
      SEvent.mk [] "com.example.Sig" "Notify" [] ::
        busDeliverSignal c10Root "com.example.Sig" "Notify" [] :=
  ⟨(c10_theorem c10Root "com.example.Sig" "Notify" []).1
      (SEvent.mk ["child"] "com.example.Sig" "Notify" [])
      (List.mem_singleton.mpr rfl),
   (c10_theorem c10Root "com.example.Sig" "Notify" []).2 rfl⟩

/-- Inversion for `WfNode`. -/
theorem wfNode_inv {n : String} {i : Option RObj}
    {a ls : List (String × RIface)} {objs : List (String × RNode)}
    (h : WfNode (RNode.mk n i a ls objs)) :
    (objs.map Prod.fst).Nodup ∧ ∀ p ∈ objs, WfNode p.2 := by
  cases h with
  | mk _ _ _ _ _ hnd hch => exact ⟨hnd, hch⟩

/-- With unique keys, a stored pair is what lookup finds. -/
theorem lookupA_of_mem_nodup {α : Type} {objs : List (String × α)}
    {nm : String} {c : α} (hmem : (nm, c) ∈ objs)
    (hnd : (objs.map Prod.fst).Nodup) : lookupA objs nm = some c := by
  induction objs with
  | nil => simp at hmem
  | cons p rest ih =>
    rcases List.mem_cons.mp hmem with rfl | hm2
    · simp [lookupA_cons]
    · have hnd' : ¬(p.1 ∈ rest.map Prod.fst) ∧ (rest.map Prod.fst).Nodup := by
        rw [List.map_cons, List.nodup_cons] at hnd
        exact hnd
      have hne : ¬(p.1 = nm) := by
        intro he
        have : nm ∈ rest.map Prod.fst :=
          List.mem_map.mpr ⟨(nm, c), hm2, rfl⟩
        exact hnd'.1 (he ▸ this)
      rw [lookupA_cons, if_neg hne]
      exact ih hm2 hnd'.2

/-- The per-node dispatch of `DeliverSignal`, written with the match
condensed into `listensTo`. -/
theorem deliverSignal_eq (n : String) (i : Option RObj)
    (a ls : List (String × RIface)) (objs : List (String × RNode))
    (iface member : String) (body : List GoVal) (loc : List String) :
    deliverSignal (RNode.mk n i a ls objs) iface member body loc =
      (if listensTo (RNode.mk n i a ls objs) iface member
       then [SEvent.mk loc iface member body] else []) ++
      deliverChildren objs iface member body loc := by
  cases hlk : lookupA ls iface with
  | none => simp [deliverSignal, listensTo, RNode.listeners, hlk]
  | some ifc =>
    cases hm : ifaceLookupMethod ifc member with
    | none => simp [deliverSignal, listensTo, RNode.listeners, hlk, hm]
    | some mm => simp [deliverSignal, listensTo, RNode.listeners, hlk, hm]

mutual
/-- In a well-formed tree, delivery invokes the listener of the node a
path resolves to exactly as often as the claim predicts. -/
theorem deliverSignal_count : ∀ (o : RNode), WfNode o →
    ∀ (iface member : String) (body : List GoVal) (loc q : List String),
    evCount (deliverSignal o iface member body loc) (loc ++ q)
        iface member body = pathCount o q iface member
  | RNode.mk n i a ls objs, hwf, iface, member, body, loc, q => by
    obtain ⟨hnd, hch⟩ := wfNode_inv hwf
    rw [deliverSignal_eq]
    unfold evCount
    rw [List.countP_append]
    cases q with
    | nil =>
      have hchild : (deliverChildren objs iface member body loc).countP
          (fun e => decide (e = SEvent.mk (loc ++ []) iface member body))
          = 0 := by
        refine List.countP_eq_zero.mpr ?_
        intro e he hp
        obtain ⟨nm, s, hs, _⟩ :=
          deliverChildren_shape objs iface member body loc e he
        simp only [decide_eq_true_eq] at hp
        rw [hp] at hs
        simp only [SEvent.mk.injEq] at hs
        have := List.append_cancel_left hs
        simp at this
      rw [hchild]
      by_cases hl : listensTo (RNode.mk n i a ls objs) iface member
      · rw [if_pos hl]
        simp only [List.countP_cons, List.countP_nil, List.append_nil]
        simp [pathCount, lookupPath, hl]
      · rw [if_neg hl]
        simp only [List.countP_nil]
        simp [pathCount, lookupPath, hl]
    | cons qh qt =>
      have hself : ((if listensTo (RNode.mk n i a ls objs) iface member
          then [SEvent.mk loc iface member body] else []).countP
          (fun e => decide (e = SEvent.mk (loc ++ qh :: qt) iface member body)))
          = 0 := by
        refine List.countP_eq_zero.mpr ?_
        intro e he hp
        by_cases hl : listensTo (RNode.mk n i a ls objs) iface member
        · rw [if_pos hl] at he
          simp only [List.mem_singleton] at he
          subst he
          simp only [decide_eq_true_eq, SEvent.mk.injEq] at hp
          have hlen := congrArg List.length hp.1
          simp only [List.length_append, List.length_cons] at hlen
          omega
        · rw [if_neg hl] at he
          simp at he
      rw [hself]
      have := deliverChildren_count objs hnd hch iface member body loc qh qt
      unfold evCount at this
      rw [this]
      unfold pathCount
      simp only [lookupPath, RNode.objects]
      cases lookupA objs qh with
      | none => simp
      | some c => simp

/-- The child-map half of the counting argument. -/
theorem deliverChildren_count : ∀ (objs : List (String × RNode)),
    (objs.map Prod.fst).Nodup → (∀ p ∈ objs, WfNode p.2) →
    ∀ (iface member : String) (body : List GoVal) (loc : List String)
      (qh : String) (qt : List String),
    evCount (deliverChildren objs iface member body loc) (loc ++ qh :: qt)
        iface member body =
      (match lookupA objs qh with
       | some c => pathCount c qt iface member
       | none => 0)
  | [], _, _, iface, member, body, loc, qh, qt => by
    simp [deliverChildren, evCount, lookupA]
  | (nm, c) :: rest, hnd, hch, iface, member, body, loc, qh, qt => by
    have hndr : (rest.map Prod.fst).Nodup :=
      (List.nodup_cons.mp (by simpa using hnd)).2
    have hnmem : ¬(nm ∈ rest.map Prod.fst) :=
      (List.nodup_cons.mp (by simpa using hnd)).1
    unfold evCount
    simp only [deliverChildren, List.countP_append]
    by_cases hq : nm = qh
    · subst hq
      have hrest : (deliverChildren rest iface member body loc).countP
          (fun e => decide (e = SEvent.mk (loc ++ nm :: qt) iface member body))
          = 0 := by
        refine List.countP_eq_zero.mpr ?_
        intro e he hp
        obtain ⟨nm2, s, hs, hmem2⟩ :=
          deliverChildren_shape rest iface member body loc e he
        simp only [decide_eq_true_eq] at hp
        rw [hp] at hs
        simp only [SEvent.mk.injEq] at hs
        have h2 := List.append_cancel_left hs
        have : nm2 = nm := by
          have := congrArg (fun l => List.head? l) h2
          simpa using this.symm
        exact hnmem (this ▸ hmem2)
      rw [hrest]
      have hsig := deliverSignal_count c (hch (nm, c) (by simp))
        iface member body (loc ++ [nm]) qt
      unfold evCount at hsig
      have hpath : loc ++ nm :: qt = (loc ++ [nm]) ++ qt := by simp
      rw [hpath, hsig]
      simp [lookupA_cons]
    · have hsig : (deliverSignal c iface member body (loc ++ [nm])).countP
          (fun e => decide (e = SEvent.mk (loc ++ qh :: qt) iface member body))
          = 0 := by
        refine List.countP_eq_zero.mpr ?_
        intro e he hp
        obtain ⟨s, hs⟩ :=
          deliverSignal_shape c iface member body (loc ++ [nm]) e he
        simp only [decide_eq_true_eq] at hp
        rw [hp] at hs
        simp only [SEvent.mk.injEq] at hs
        have h2 : qh :: qt = nm :: s := by
          have : loc ++ qh :: qt = loc ++ nm :: s := by simpa using hs
          exact List.append_cancel_left this
        exact hq (by injection h2 with h3 _; exact h3.symm)
      rw [hsig]
      have := deliverChildren_count rest hndr
        (fun p hp => hch p (List.mem_cons_of_mem _ hp)) iface member body
        loc qh qt
      unfold evCount at this
      rw [this]
      simp [lookupA_cons, hq]
end

mutual
/-- Every recorded invocation belongs to a node reachable by its path,
that node holds a matching listener, and the payload is the signal's. -/
theorem deliverSignal_sound : ∀ (o : RNode), WfNode o →
    ∀ (iface member : String) (body : List GoVal) (loc : List String)
      (e : SEvent), e ∈ deliverSignal o iface member body loc →
    e.iface = iface ∧ e.member = member ∧ e.body = body ∧
    ∃ q n, e.path = loc ++ q ∧ lookupPath o q = some n ∧
      listensTo n iface member = true
  | RNode.mk n i a ls objs, hwf, iface, member, body, loc, e, he => by
    obtain ⟨hnd, hch⟩ := wfNode_inv hwf
    rw [deliverSignal_eq] at he
    rcases List.mem_append.mp he with h1 | h2
    · by_cases hl : listensTo (RNode.mk n i a ls objs) iface member
      · rw [if_pos hl] at h1
        simp only [List.mem_singleton] at h1
        subst h1
        exact ⟨rfl, rfl, rfl, [], RNode.mk n i a ls objs, by simp, rfl, hl⟩
      · rw [if_neg hl] at h1
        simp at h1
    · obtain ⟨he1, he2, he3, nm, c, q', n', hlk, hpath, hlp, hl⟩ :=
        deliverChildren_sound objs hnd hch iface member body loc e h2
      refine ⟨he1, he2, he3, nm :: q', n', hpath, ?_, hl⟩
      simp only [lookupPath, RNode.objects, hlk]
      exact hlp

/-- The child-map half of the soundness argument. -/
theorem deliverChildren_sound : ∀ (objs : List (String × RNode)),
    (objs.map Prod.fst).Nodup → (∀ p ∈ objs, WfNode p.2) →
    ∀ (iface member : String) (body : List GoVal) (loc : List String)
      (e : SEvent), e ∈ deliverChildren objs iface member body loc →
    e.iface = iface ∧ e.member = member ∧ e.body = body ∧
    ∃ nm c q n, lookupA objs nm = some c ∧ e.path = loc ++ nm :: q ∧
      lookupPath c q = some n ∧ listensTo n iface member = true
  | [], _, _, iface, member, body, loc, e, he => by
    simp [deliverChildren] at he
  | (nm, c) :: rest, hnd, hch, iface, member, body, loc, e, he => by
    have hnd' : ¬(nm ∈ rest.map Prod.fst) ∧ (rest.map Prod.fst).Nodup := by
      rw [List.map_cons, List.nodup_cons] at hnd
      exact hnd
    simp only [deliverChildren] at he
    rcases List.mem_append.mp he with h1 | h2
    · obtain ⟨he1, he2, he3, q, n', hpath, hlp, hl⟩ :=
        deliverSignal_sound c (hch (nm, c) (by simp)) iface member body
          (loc ++ [nm]) e h1
      refine ⟨he1, he2, he3, nm, c, q, n', ?_, ?_, hlp, hl⟩
      · simp [lookupA_cons]
      · rw [hpath]; simp
    · obtain ⟨he1, he2, he3, nm2, c2, q, n', hlk, hpath, hlp, hl⟩ :=
        deliverChildren_sound rest hnd'.2
          (fun p hp => hch p (List.mem_cons_of_mem _ hp))
          iface member body loc e h2
      refine ⟨he1, he2, he3, nm2, c2, q, n', ?_, hpath, hlp, hl⟩
      have hne : ¬(nm = nm2) := by
        intro hcon
        exact hnd'.1 (hcon ▸ lookupA_mem_keys hlk)
      rw [lookupA_cons, if_neg hne]
      exact hlk
end

/-- Claim C8: on a well-formed tree, delivery invokes the matching
listener operation of every node in the subtree that binds the pair
exactly once with the payload as arguments, and invokes nothing else —
in particular, delivery of a pair with no registered listener invokes
nothing and reports no error. -/
theorem c8_theorem (t : RNode) (hwf : WfNode t) (iface member : String)
    (body : List GoVal) :
    (∀ q n, lookupPath t q = some n →
      evCount (deliverSignal t iface member body []) q iface member body =
        (if listensTo n iface member then 1 else 0)) ∧
    (∀ e ∈ deliverSignal t iface member body [],
      e.iface = iface ∧ e.member = member ∧ e.body = body ∧
      ∃ n, lookupPath t e.path = some n ∧ listensTo n iface member = true) := by
  constructor
  · intro q n hq
    have := deliverSignal_count t hwf iface member body [] q
    unfold pathCount at this
    rw [hq] at this
    simpa using this
  · intro e he
    obtain ⟨h1, h2, h3, q, n, hpath, hlp, hl⟩ :=
      deliverSignal_sound t hwf iface member body [] e he
    refine ⟨h1, h2, h3, n, ?_, hl⟩
    rw [hpath]
    simpa using hlp

/-- The concrete tree is well-formed. -/
theorem c8TreeWf : WfNode c8Tree := by
  refine WfNode.mk _ _ _ _ _ (by decide) ?_
  intro p hp
  rcases List.mem_cons.mp hp with rfl | hp2
  · exact WfNode.mk _ _ _ _ _ (by decide) (by intro q hq; simp at hq)
  rcases List.mem_cons.mp hp2 with rfl | hp3
  · exact WfNode.mk _ _ _ _ _ (by decide) (by intro q hq; simp at hq)
  · simp at hp3

/-- Witness for C8: both listeners fire exactly once with the payload,
and delivery of an unregistered operation name records no invocation
anywhere. -/
theorem c8_witness :
    evCount (deliverSignal c8Tree "com.example.Sig" "Notify"
        [GoVal.intv 7] []) ["n1"] "com.example.Sig" "Notify"
        [GoVal.intv 7] = 1 ∧
    evCount (deliverSignal c8Tree "com.example.Sig" "Notify"
        [GoVal.intv 7] []) ["n2"] "com.example.Sig" "Notify"
        [GoVal.intv 7] = 1 ∧
    deliverSignal c8Tree "com.example.Sig" "Missing" [GoVal.intv 7] [] = [] := by
  refine ⟨?_, ?_, rfl⟩
  · have h := (c8_theorem c8Tree c8TreeWf "com.example.Sig" "Notify"
      [GoVal.intv 7]).1 ["n1"]
      (RNode.mk "n1" (some ⟨[]⟩) builtinInterfaces
        [("com.example.Sig",
          ⟨[("Notify", ⟨[GoType.tint], []⟩)],
           [("Notify", ⟨[GoType.tint], [], fun _ => []⟩)]⟩)] []) rfl
    exact h.trans rfl
  · have h := (c8_theorem c8Tree c8TreeWf "com.example.Sig" "Notify"
      [GoVal.intv 7]).1 ["n2"]
      (RNode.mk "n2" (some ⟨[]⟩) builtinInterfaces
        [("com.example.Sig",
          ⟨[("Notify", ⟨[GoType.tint], []⟩)],
           [("Notify", ⟨[GoType.tint], [], fun _ => []⟩)]⟩)] []) rfl
    exact h.trans rfl

/-- Claim C2 states that after a delete, upward pruning removes only
ancestors left with neither children nor bindings, and that an ancestor
that still has other children or its own bindings after shedding the
deleted descendant is left in place as itself — same node, same listener
bindings — losing only the deleted child.  Evaluated at the failing
input — `NewObject("/a/b/c", implC)`, then `NewObject("/a", implA)`
(which replaces the placeholder at a and adopts its child b, whose
stored parent pointer keeps referring to the detached old node), a
listener bound on the live /a, then `DeleteObject("/a/b/c")` — the code
violates the claim: before the delete, /a carries `implA` and the
listener binding, and it keeps its child b after c is shed; after it,
the pruning chain has climbed b's stale parent pointer through the
detached old placeholder into the root, which wiped the live /a's
listeners and replaced it with an implementation-less placeholder
carrying only the built-in bindings. -/
theorem c2_theorem :
    (heapNodeAt c2HeapReady ["a"]).map HNode.impl = some (some c2ImplA) ∧
    (heapNodeAt c2HeapReady ["a"]).map HNode.listeners =
      some [("com.example.Sig", c2ListenerIface)] ∧
    (heapNodeAt c2HeapReady ["a", "b"]).isSome = true ∧
    (heapNodeAt c2HeapDeleted ["a"]).map HNode.impl = some none ∧
    (heapNodeAt c2HeapDeleted ["a"]).map HNode.listeners = some [] ∧
    (heapNodeAt c2HeapDeleted ["a"]).map HNode.interfaces =
      some builtinInterfaces ∧
    (heapNodeAt c2HeapDeleted ["a", "b"]).isSome = true ∧
    heapNodeAt c2HeapDeleted ["a", "b", "c"] = none :=
  ⟨rfl, rfl, rfl, rfl, rfl, rfl, rfl, rfl⟩

